import Mathlib

/-!
Verification of the deep-merge engine (`merge_hash`) of the ansible-plugins
repository and of its two consumers, the `default4dist` precedence resolver
and the `extend_by_name` name-prefix accumulator.

The Python data values handled by these plugins are embedded as the
inductive type `Value` below.  Python booleans are kept as a separate
constructor, and Python's numeric cross-equality between booleans and
integers (`True == 1`) is reproduced in `pyEq`.  Python dictionaries are
embedded as association lists in insertion order (a real Python dict has
pairwise distinct keys; the predicate `wfD` captures that).  Python's `==`
on dictionaries is order-insensitive and is embedded as `pyEqD`; Python's
`==` on lists is the pointwise `pyEqL`.
-/

namespace AnsP

/-- A Python value as handled by the plugins: `None`, `bool`, `int`, `str`,
`list` and `dict` (with string keys, kept in insertion order). -/
inductive Value where
  | vnull
  | vbool (b : Bool)
  | vint (n : Int)
  | vstr (s : String)
  | vlist (l : List Value)
  | vdict (d : List (String × Value))

/-- A Python dictionary with string keys, in insertion order. -/
abbrev Dict := List (String × Value)

/-- The keys of a dictionary, in insertion order (Python `d.keys()`). -/
def dkeys (d : Dict) : List String := d.map (fun p => p.1)

/-- Python `d[k]` / `d.get(k)`: the value of the first entry with key `k`. -/
def dget : Dict → String → Option Value
  | [], _ => none
  | (k', v) :: d, k => if k' = k then some v else dget d k

/-- Python `d.get(k, dflt)`. -/
def dgetD (d : Dict) (k : String) (dflt : Value) : Value := (dget d k).getD dflt

/-- Python `d[k] = v`: replace the value of an existing key in place,
otherwise append a new entry at the end (insertion-order semantics). -/
def dictSet : Dict → String → Value → Dict
  | [], k, v => [(k, v)]
  | (k', v') :: d, k, v => if k' = k then (k, v) :: d else (k', v') :: dictSet d k v

/-- Python `x.update(y)`: set every key of `y` in `x`, in `y`'s order. -/
def updateAll (x : Dict) : Dict → Dict
  | [] => x
  | (k, v) :: rest => updateAll (dictSet x k v) rest

/-- Python truthiness (`bool(v)`): `None`, `False`, `0`, `""`, `[]` and `{}`
are falsy, everything else is truthy. -/
def truthy : Value → Bool
  | .vnull => false
  | .vbool b => b
  | .vint n => n != 0
  | .vstr s => !s.isEmpty
  | .vlist l => !l.isEmpty
  | .vdict d => !d.isEmpty

/-- Python `v is None`. -/
def isNull : Value → Bool
  | .vnull => true
  | _ => false

/-- Python `a or b`: `a` if `a` is truthy, else `b`. -/
def pyOr (a b : Value) : Value := if truthy a then a else b

mutual

/-- Python `==` on embedded values.  Booleans compare equal to the
integers 0/1 (in Python `bool` is a subtype of `int`), lists compare
pointwise, dictionaries compare by key set and per-key value equality
(insertion order is ignored). -/
def pyEq : Value → Value → Bool
  | .vnull, .vnull => true
  | .vbool a, .vbool b => a == b
  | .vbool a, .vint n => (if a then (1 : Int) else 0) == n
  | .vint n, .vbool b => n == (if b then (1 : Int) else 0)
  | .vint m, .vint n => m == n
  | .vstr s, .vstr t => s == t
  | .vlist l, .vlist m => pyEqL l m
  | .vdict d, .vdict e => pyEqD d e
  | _, _ => false
termination_by a b => sizeOf a + sizeOf b
decreasing_by all_goals (simp_wf; try omega)

/-- Python `==` on lists: same length and pointwise equal. -/
def pyEqL : List Value → List Value → Bool
  | [], [] => true
  | a :: l, b :: m => pyEq a b && pyEqL l m
  | _, _ => false
termination_by l m => sizeOf l + sizeOf m
decreasing_by all_goals (simp_wf; try omega)

/-- Python `==` on dicts: same number of keys, and every entry of the left
dict has a Python-equal value under the same key in the right dict. -/
def pyEqD (d e : Dict) : Bool :=
  d.length == e.length && pyEqEntries d e
termination_by sizeOf d + sizeOf e + 1
decreasing_by all_goals (simp_wf; try omega)

/-- Every entry of `d` has a Python-equal value under its key in `e`. -/
def pyEqEntries : Dict → Dict → Bool
  | [], _ => true
  | (k, v) :: d, e => pyEqKey k v e && pyEqEntries d e
termination_by d e => sizeOf d + sizeOf e
decreasing_by all_goals (simp_wf; try omega)

/-- `e[k]` exists (first occurrence) and is Python-equal to `v`. -/
def pyEqKey : String → Value → Dict → Bool
  | _, _, [] => false
  | k, v, (k', w) :: e => if k' = k then pyEq v w else pyEqKey k v e
termination_by _ v e => sizeOf v + sizeOf e
decreasing_by all_goals (simp_wf; try omega)

end

mutual

/-- Well-formedness of an embedded value: every dictionary nested in it has
pairwise distinct keys (true of every real Python value). -/
def wfV : Value → Bool
  | .vnull => true
  | .vbool _ => true
  | .vint _ => true
  | .vstr _ => true
  | .vlist l => wfL l
  | .vdict d => wfD d

/-- Well-formedness of a list of values. -/
def wfL : List Value → Bool
  | [] => true
  | v :: l => wfV v && wfL l

/-- Well-formedness of a dictionary: distinct keys, well-formed values. -/
def wfD : Dict → Bool
  | [] => true
  | (k, v) :: d => !(dkeys d).contains k && wfV v && wfD d

end

/-- The six valid `list_merge` policies of `merge_hash`. -/
inductive ListMerge where
  | replace
  | keep
  | append
  | prepend
  | append_rp
  | prepend_rp
deriving DecidableEq

/-- The validation at the top of `merge_hash`: the `list_merge` string must
be one of the six policy names. -/
def parseListMerge (s : String) : Option ListMerge :=
  if s = "replace" then some .replace
  else if s = "keep" then some .keep
  else if s = "append" then some .append
  else if s = "prepend" then some .prepend
  else if s = "append_rp" then some .append_rp
  else if s = "prepend_rp" then some .prepend_rp
  else none

/-- Python `z in l` for a list of values (membership by Python `==`). -/
def pyContains (l : List Value) (z : Value) : Bool := l.any (fun e => pyEq z e)

/-- The list-combination branch of `merge_hash` (default4dist.py lines
166-187; the textually identical combine_dict_vars.py lines 106-127 are
unreachable there, see below): how two list values under the same key are
combined. -/
def combineLists (lm : ListMerge) (xl yl : List Value) : List Value :=
  match lm with
  | .replace => yl
  | .keep => xl
  | .append => xl ++ yl
  | .prepend => yl ++ xl
  | .append_rp => xl.filter (fun z => !pyContains yl z) ++ yl
  | .prepend_rp => yl ++ xl.filter (fun z => !pyContains yl z)

/-!
The repository carries two textual copies of Ansible 2.10's `merge_hash`.
The copy in default4dist.py (lines 105-192) is fully functional: it imports
`AnsibleError` (line 91) and iterates the overlay with `y.items()`
(line 142).  The copy in combine_dict_vars.py (lines 47-132) is textually
the same algorithm but references two names that are neither imported nor
defined in that file: `AnsibleError` (line 54; only `from ansible import
errors` is imported) and `iteritems` (line 82), so in that file the
invalid-policy branch and every invocation reaching the general per-key
loop raise Python `NameError` instead.  `mergeHash` below embeds the
functional default4dist.py copy; `merge_hash_cdv` further down embeds the
combine_dict_vars.py copy with its NameErrors.
-/

mutual

/-- `merge_hash(x, y, recursive, list_merge)` after the `list_merge`
validation — the functional copy of default4dist.py lines 105-192 — with
both fast paths: if `x == {}` or `x == y` return (a copy of) `y`; if not
recursive and `list_merge == 'replace'` return `x.update(y)`; else run the
per-key loop over `y.items()`. -/
def mergeHash (x y : Dict) (r : Bool) (lm : ListMerge) : Dict :=
  if x.isEmpty || pyEqD x y then y
  else if r = false ∧ lm = .replace then updateAll x y
  else mergeLoop x y r lm
termination_by (sizeOf y, 2)

/-- The general per-key path of `merge_hash`: insert each element of `y`
into the accumulator (initially a copy of `x`), one `mergeStep` per entry. -/
def mergeLoop : Dict → Dict → Bool → ListMerge → Dict
  | x, [], _, _ => x
  | x, (k, yv) :: rest, r, lm => mergeLoop (mergeStep x k (dget x k) yv r lm) rest r lm
termination_by _ y => (sizeOf y, 1)

/-- The body of the per-key loop of `merge_hash` for the key `k` with
overlay value `yv`, given the accumulator `x` and its current value
`x[k]` at that key (`none` when `k` is absent): a missing key is set; two
mappings are merged recursively when `recursive` else overwritten; two
lists are combined per the `list_merge` policy; any other combination is
overwritten by the overlay value. -/
def mergeStep (x : Dict) (k : String) : Option Value → Value → Bool → ListMerge → Dict
  | none, yv, _, _ => dictSet x k yv
  | some (.vdict xd), .vdict yd, true, lm => dictSet x k (.vdict (mergeHash xd yd true lm))
  | some (.vdict _), .vdict yd, false, _ => dictSet x k (.vdict yd)
  | some (.vlist xl), .vlist yl, _, lm => dictSet x k (.vlist (combineLists lm xl yl))
  | some _, yv, _, _ => dictSet x k yv
termination_by _ yv _ _ => (sizeOf yv, 0)

end

/-- The error message of the `list_merge` validation of the functional
default4dist.py copy (its `AnsibleError`, lines 112-114; quotes elided). -/
def mergeHashErrMsg : String :=
  "merge_hash: list_merge argument can only be equal to replace, keep, append, prepend, append_rp or prepend_rp"

/-- The full `merge_hash` entry point of the functional default4dist.py
copy: validate the `list_merge` string (raising `AnsibleError` otherwise,
default4dist.py lines 111-114), then merge. -/
def merge_hash (x y : Dict) (r : Bool) (list_merge : String) : Except String Dict :=
  match parseListMerge list_merge with
  | none => .error mergeHashErrMsg
  | some lm => .ok (mergeHash x y r lm)

/-- The NameError raised by combine_dict_vars.py line 54: the branch for an
invalid `list_merge` executes `raise AnsibleError(...)`, but `AnsibleError`
is not a defined name in that file (only `from ansible import errors` is
imported), so evaluating the raise-expression itself fails. -/
def nameErrAnsibleError : String := "NameError: name AnsibleError is not defined"

/-- The NameError raised by combine_dict_vars.py line 82: the general
per-key loop is written `for key, y_value in iteritems(y)`, but `iteritems`
is neither imported nor defined in that file, so the loop header fails
before a single entry is processed. -/
def nameErrIteritems : String := "NameError: name iteritems is not defined"

/-- `merge_hash` as it actually behaves in combine_dict_vars.py (lines
47-132): an invalid `list_merge` raises NameError on the undefined
`AnsibleError`; the `x == {} or x == y` fast path and the non-recursive
`replace` update path work (they use only built-ins); every invocation
reaching the general per-key loop raises NameError on the undefined
`iteritems`, so the per-key merging code of lines 85-130 is dead code in
this file. -/
def merge_hash_cdv (x y : Dict) (r : Bool) (list_merge : String) : Except String Dict :=
  match parseListMerge list_merge with
  | none => .error nameErrAnsibleError
  | some lm =>
    if x.isEmpty || pyEqD x y then .ok y
    else if r = false ∧ lm = .replace then .ok (updateAll x y)
    else .error nameErrIteritems

/-- The combine_dict_vars.py general per-key path on its own (the source
with the two speed-up `if`s removed, as its comments suggest): it
immediately evaluates the undefined `iteritems`, so every invocation raises
NameError. -/
def mergeSlow_cdv (_x _y : Dict) (_r : Bool) (_lm : ListMerge) : Except String Dict :=
  .error nameErrIteritems

mutual

/-- The general per-key path of the functional default4dist.py `merge_hash`
on its own: that source with the two speed-up `if`s removed (its comments
claim this removal does not change the function).  Nested recursive merges
also skip the fast paths. -/
def mergeLoopSlow : Dict → Dict → Bool → ListMerge → Dict
  | x, [], _, _ => x
  | x, (k, yv) :: rest, r, lm => mergeLoopSlow (slowStep x k (dget x k) yv r lm) rest r lm
termination_by _ y => (sizeOf y, 1)

/-- The per-key body of the general path, as `mergeStep` but with the
nested merge also running the general path only. -/
def slowStep (x : Dict) (k : String) : Option Value → Value → Bool → ListMerge → Dict
  | none, yv, _, _ => dictSet x k yv
  | some (.vdict xd), .vdict yd, true, lm => dictSet x k (.vdict (mergeLoopSlow xd yd true lm))
  | some (.vdict _), .vdict yd, false, _ => dictSet x k (.vdict yd)
  | some (.vlist xl), .vlist yl, _, lm => dictSet x k (.vlist (combineLists lm xl yl))
  | some _, yv, _, _ => dictSet x k yv
termination_by _ yv _ _ => (sizeOf yv, 0)

end

/-!
String helpers.  Python compares strings lexicographically by code point and
`sorted` orders them accordingly; these are embedded on the character lists
of Lean strings (Lean's built-in `String` order is definitionally opaque to
the kernel, so a direct embedding is used instead).
-/

/-- Lexicographic `<=` on character lists by code point (Python string
comparison). -/
def lexLeChars : List Char → List Char → Bool
  | [], _ => true
  | _ :: _, [] => false
  | a :: as, b :: bs =>
    if a.toNat < b.toNat then true
    else if a.toNat = b.toNat then lexLeChars as bs
    else false

/-- Python `a <= b` on strings. -/
def strLeB (a b : String) : Bool := lexLeChars a.data b.data

/-- Python `s.startswith(p)`. -/
def startsWithB (s p : String) : Bool := p.data.isPrefixOf s.data

/-- Python `sorted` on a list of strings (by code point). -/
def sortStrs (l : List String) : List String :=
  List.insertionSort (fun a b => strLeB a b = true) l

/-!
The `default4dist` precedence resolver (lookup_plugins/default4dist.py,
`LookupModule.run`, lines 229-275).  The five OS identity strings
(`ansible_distribution` lowercased, `ansible_os_family` lowercased,
`ansible_distribution_version`, `str(ansible_distribution_major_version)`,
`ansible_distribution_release`) are taken directly as strings; `suffixPool`
is the eight-element suffix enumeration written in the source.  The source
pours these eight strings into a Python `set` literal, so the loop iterates
them in an unspecified order over the deduplicated pool; the embedding makes
that explicit by taking the iteration order as a parameter constrained (in
the theorems) to be a permutation of the deduplicated pool.
-/

/-- The eight suffix expressions of default4dist.py lines 243-252, in the
order they are written in the source (the source then loses this order by
placing them in a set). -/
def suffixPool (dist fam ver major rel : String) : List String :=
  [dist ++ "_" ++ ver, dist ++ "_" ++ rel, dist ++ "_" ++ major, dist,
   fam ++ "_" ++ ver, fam ++ "_" ++ rel, fam ++ "_" ++ major, fam]

/-- `get_value` (default4dist.py lines 232-233):
`variables.get(prefix + suffix, None) or variables.get(prefix + '_' + suffix, None)`. -/
def getValue (vars : Dict) (pfx sfx : String) : Value :=
  pyOr (dgetD vars (pfx ++ sfx) .vnull) (dgetD vars (pfx ++ "_" ++ sfx) .vnull)

/-- The candidate scan (default4dist.py lines 258-271): try each suffix in
iteration order, use the first whose `get_value` is not `None`. -/
def findDist (vars : Dict) (pfx : String) : List String → Option Value
  | [] => none
  | s :: rest =>
    let v := getValue vars pfx s
    if isNull v then findDist vars pfx rest else some v

/-- One `default4dist` resolution (the body of the `for term in terms` loop,
default4dist.py lines 254-273) for an already-parsed term, with the set
iteration order passed in as `order`.  When the found candidate and the
default are both present, the combination depends on the default's type:
mapping defaults go through `merge_hash` (a non-mapping candidate is then a
type error unless the default is empty, in which case `merge_hash`'s
`x == {}` fast path returns the candidate unchanged), list defaults are
concatenated with `+` (a type error on a non-list candidate), any other
default is discarded.  If no candidate is found, the default itself (which
is `None` when absent) is returned. -/
def d4dResolve (order : List String) (vars : Dict) (pfx : String)
    (r : Bool) (lm : ListMerge) : Except String Value :=
  let dflt := getValue vars pfx "default"
  match findDist vars pfx order with
  | some dv =>
    if isNull dflt then .ok dv
    else
      match dflt with
      | .vdict dd =>
        match dv with
        | .vdict cd => .ok (.vdict (mergeHash dd cd r lm))
        | v => if dd.isEmpty then .ok v
               else .error "TypeError: merge_hash cannot merge a non-mapping into a non-empty mapping"
      | .vlist dl =>
        match dv with
        | .vlist cl => .ok (.vlist (dl ++ cl))
        | _ => .error "TypeError: can only concatenate list to list"
      | _ => .ok dv
  | none => .ok dflt

/-!
The `extend_by_name` name-prefix accumulator (lookup_plugins/extend_by_name.py,
`LookupModule.run`, lines 135-161).  Template rendering
(`templar.template`) is the external collaborator and is passed in as a
function `render`.
-/

/-- One iteration of the extend_by_name loop (extend_by_name.py lines
149-159) on the accumulator `ret` for the variable `name` with rendered
value `v`.  Note the source checks `isinstance(value, list)` in the
mapping branch as well even though its error message demands a dict; a
list value is then handed to `merge_hash` as the overlay of a mapping,
which only avoids a runtime type error through the `x == {}` fast path
(returning the list itself); with a non-empty mapping accumulator Python
fails with a runtime type error when iterating or updating from the list
(modelled as an error; the exotic sub-case of updating a dict from a list
that happens to contain key/value pairs is not exercised by any theorem
below).  If `ret` is neither a list nor a mapping no branch applies and
`ret` is left unchanged. -/
def ebnStep (ret : Value) (name : String) (v : Value) : Except String Value :=
  match ret with
  | .vlist rl =>
    match v with
    | .vlist vl => .ok (.vlist (rl ++ vl))
    | _ => .error ("Value type of " ++ name ++ " must be list, same as the default value")
  | .vdict rd =>
    match v with
    | .vlist vl =>
      if rd.isEmpty then .ok (.vlist vl)
      else .error "TypeError: merge_hash cannot merge a non-mapping into a non-empty mapping"
    | _ => .error ("Value type of " ++ name ++ " must be dict, same as the default value")
  | _ => .ok ret

/-- The extend_by_name fold over the sorted matching variable names. -/
def ebnFold (render : Value → Value) (vars : Dict) : List String → Value → Except String Value
  | [], ret => .ok ret
  | n :: ns, ret =>
    match ebnStep ret n (render (dgetD vars n .vnull)) with
    | .error e => .error e
    | .ok ret' => ebnFold render vars ns ret'

/-- One `extend_by_name` run for already-parsed parameters: validate the
default's type (extend_by_name.py lines 120-123), then fold every variable
whose name starts with the prefix into it, iterating `sorted(variables.keys())`
(line 148). -/
def ebnRun (render : Value → Value) (vars : Dict) (dflt : Value) (pfx : String)
    (_r : Bool) (_lm : ListMerge) : Except String Value :=
  match dflt with
  | .vlist _ | .vdict _ =>
    ebnFold render vars ((sortStrs (dkeys vars)).filter (fun n => startsWithB n pfx)) dflt
  | _ => .error "Default value must be of type list or dict"

/-!
Basic lemmas about the dictionary operations.
-/

theorem mem_dkeys {d : Dict} {k : String} : k ∈ dkeys d ↔ ∃ v, (k, v) ∈ d := by
  constructor
  · intro h
    rcases List.mem_map.mp h with ⟨⟨k', v⟩, hm, he⟩
    exact ⟨v, by simpa [← he] using hm⟩
  · rintro ⟨v, hm⟩
    exact List.mem_map.mpr ⟨(k, v), hm, rfl⟩

theorem dkeys_length (d : Dict) : (dkeys d).length = d.length := List.length_map _ _

@[simp] theorem dkeys_nil : dkeys [] = [] := rfl

@[simp] theorem dkeys_cons (k : String) (v : Value) (d : Dict) :
    dkeys ((k, v) :: d) = k :: dkeys d := rfl

theorem dget_mem {d : Dict} {k : String} {v : Value} (h : dget d k = some v) : (k, v) ∈ d := by
  induction d with
  | nil => simp [dget] at h
  | cons p d ih =>
    obtain ⟨k', v'⟩ := p
    by_cases hk : k' = k
    · subst hk
      simp [dget] at h
      simp [h]
    · simp [dget, hk] at h
      exact List.mem_cons_of_mem _ (ih h)

theorem dget_isSome_iff {d : Dict} {k : String} : (dget d k).isSome = true ↔ k ∈ dkeys d := by
  induction d with
  | nil => simp [dget, dkeys]
  | cons p d ih =>
    obtain ⟨k', v'⟩ := p
    by_cases hk : k' = k
    · subst hk; simp [dget, dkeys]
    · have hk' : ¬k = k' := fun he => hk he.symm
      simp [dget, dkeys, hk, hk', ih]

theorem dget_eq_none_iff {d : Dict} {k : String} : dget d k = none ↔ k ∉ dkeys d := by
  rw [← dget_isSome_iff]
  cases h : dget d k <;> simp [h]

theorem mem_dget {d : Dict} {k : String} {v : Value} (hn : (dkeys d).Nodup)
    (hm : (k, v) ∈ d) : dget d k = some v := by
  induction d with
  | nil => simp at hm
  | cons p d ih =>
    obtain ⟨k', v'⟩ := p
    simp only [dkeys, List.map_cons, List.nodup_cons] at hn
    rcases List.mem_cons.mp hm with he | hm'
    · obtain ⟨h1, h2⟩ := Prod.mk.injEq .. ▸ he
      simp [dget, h1.symm, h2]
    · have hk : k' ≠ k := by
        intro he'
        exact hn.1 (he' ▸ mem_dkeys.mpr ⟨v, hm'⟩)
      simp [dget, hk, ih hn.2 hm']

theorem dget_dictSet_self (x : Dict) (k : String) (v : Value) :
    dget (dictSet x k v) k = some v := by
  induction x with
  | nil => simp [dictSet, dget]
  | cons p x ih =>
    obtain ⟨k', v'⟩ := p
    by_cases hk : k' = k
    · simp [dictSet, hk, dget]
    · simp [dictSet, hk, dget, ih]

theorem dget_dictSet_ne (x : Dict) {k k' : String} (v : Value) (h : k' ≠ k) :
    dget (dictSet x k v) k' = dget x k' := by
  have h' : ¬k = k' := fun he => h he.symm
  induction x with
  | nil => simp [dictSet, dget, h']
  | cons p x ih =>
    obtain ⟨k1, v1⟩ := p
    by_cases hk : k1 = k
    · subst hk
      simp [dictSet, dget, h']
    · simp [dictSet, hk, dget, ih]

theorem dkeys_dictSet_mem {x : Dict} {k : String} (v : Value) (h : k ∈ dkeys x) :
    dkeys (dictSet x k v) = dkeys x := by
  induction x with
  | nil => simp at h
  | cons p x ih =>
    obtain ⟨k1, v1⟩ := p
    by_cases hk : k1 = k
    · simp [dictSet, hk]
    · have h' : k ∈ dkeys x := by
        rcases List.mem_cons.mp (by simpa using h) with he | hm
        · exact absurd he.symm hk
        · exact hm
      simp [dictSet, hk, ih h']

theorem dkeys_dictSet_not_mem {x : Dict} {k : String} (v : Value) (h : k ∉ dkeys x) :
    dkeys (dictSet x k v) = dkeys x ++ [k] := by
  induction x with
  | nil => simp [dictSet]
  | cons p x ih =>
    obtain ⟨k1, v1⟩ := p
    have hk : k1 ≠ k := by
      intro he
      exact h (by simp [he])
    have h' : k ∉ dkeys x := fun hm => h (by simp [hm])
    simp [dictSet, hk, ih h']

theorem dictSet_not_mem {x : Dict} {k : String} (v : Value) (h : k ∉ dkeys x) :
    dictSet x k v = x ++ [(k, v)] := by
  induction x with
  | nil => simp [dictSet]
  | cons p x ih =>
    obtain ⟨k1, v1⟩ := p
    have hk : k1 ≠ k := by
      intro he
      exact h (by simp [he])
    have h' : k ∉ dkeys x := fun hm => h (by simp [hm])
    simp [dictSet, hk, ih h']

theorem length_dictSet_mem {x : Dict} {k : String} (v : Value) (h : k ∈ dkeys x) :
    (dictSet x k v).length = x.length := by
  have := dkeys_dictSet_mem v h
  calc (dictSet x k v).length = (dkeys (dictSet x k v)).length := (dkeys_length _).symm
    _ = (dkeys x).length := by rw [this]
    _ = x.length := dkeys_length _

theorem mem_dictSet {x : Dict} {k : String} {v : Value} {p : String × Value}
    (hn : (dkeys x).Nodup) (hm : p ∈ dictSet x k v) :
    p = (k, v) ∨ (p ∈ x ∧ p.1 ≠ k) := by
  induction x with
  | nil => simp [dictSet] at hm; simp [hm]
  | cons q x ih =>
    obtain ⟨k1, v1⟩ := q
    simp only [dkeys, List.map_cons, List.nodup_cons] at hn
    by_cases hk : k1 = k
    · subst hk
      rcases List.mem_cons.mp (by simpa [dictSet] using hm) with he | hm'
      · exact .inl he
      · refine .inr ⟨List.mem_cons_of_mem _ hm', ?_⟩
        intro he
        exact hn.1 (he ▸ mem_dkeys.mpr ⟨p.2, by simpa using hm'⟩)
    · rcases List.mem_cons.mp (by simpa [dictSet, hk] using hm) with he | hm'
      · refine .inr ⟨by simp [he], ?_⟩
        simp [he]
        exact hk
      · rcases ih hn.2 hm' with h | ⟨h1, h2⟩
        · exact .inl h
        · exact .inr ⟨List.mem_cons_of_mem _ h1, h2⟩

/-!
Lemmas about well-formedness.
-/

theorem wfD_cons {k : String} {v : Value} {d : Dict} :
    wfD ((k, v) :: d) = true ↔ k ∉ dkeys d ∧ wfV v = true ∧ wfD d = true := by
  simp [wfD, List.elem_iff, and_assoc]

theorem wfD_nodup {d : Dict} (h : wfD d = true) : (dkeys d).Nodup := by
  induction d with
  | nil => simp
  | cons p d ih =>
    obtain ⟨k, v⟩ := p
    rcases wfD_cons.mp h with ⟨h1, _, h3⟩
    simp [h1, ih h3]

theorem wfD_mem_value {d : Dict} {k : String} {v : Value} (h : wfD d = true)
    (hm : (k, v) ∈ d) : wfV v = true := by
  induction d with
  | nil => simp at hm
  | cons p d ih =>
    obtain ⟨k1, v1⟩ := p
    rcases wfD_cons.mp h with ⟨_, h2, h3⟩
    rcases List.mem_cons.mp hm with he | hm'
    · obtain ⟨_, hv⟩ := Prod.mk.injEq .. ▸ he
      exact hv ▸ h2
    · exact ih h3 hm'

theorem wfD_dget_value {d : Dict} {k : String} {v : Value} (h : wfD d = true)
    (hg : dget d k = some v) : wfV v = true :=
  wfD_mem_value h (dget_mem hg)

theorem wfD_dictSet {x : Dict} {k : String} {v : Value} (hx : wfD x = true)
    (hv : wfV v = true) : wfD (dictSet x k v) = true := by
  induction x with
  | nil =>
    simp only [dictSet]
    refine wfD_cons.mpr ⟨?_, hv, ?_⟩
    · simp
    · rw [wfD]
  | cons p x ih =>
    obtain ⟨k1, v1⟩ := p
    rcases wfD_cons.mp hx with ⟨h1, h2, h3⟩
    by_cases hk : k1 = k
    · subst hk
      simp only [dictSet, if_pos rfl]
      exact wfD_cons.mpr ⟨h1, hv, h3⟩
    · simp only [dictSet, if_neg hk]
      refine wfD_cons.mpr ⟨?_, h2, ih h3⟩
      by_cases hkx : k ∈ dkeys x
      · rw [dkeys_dictSet_mem v hkx]; exact h1
      · rw [dkeys_dictSet_not_mem v hkx]
        intro hmem
        rcases List.mem_append.mp hmem with hm | hm
        · exact h1 hm
        · have he : k1 = k := by simpa using hm
          exact hk he

/-!
Lemmas about the embedded Python equality.
-/

theorem pyEqKey_some {e : Dict} {k : String} {w : Value} (v : Value)
    (h : dget e k = some w) : pyEqKey k v e = pyEq v w := by
  induction e with
  | nil => simp [dget] at h
  | cons p e ih =>
    obtain ⟨k1, w1⟩ := p
    by_cases hk : k1 = k
    · subst hk
      simp [dget] at h
      simp [pyEqKey, h]
    · simp [dget, hk] at h
      simp [pyEqKey, hk, ih h]

theorem pyEqKey_none {e : Dict} {k : String} (v : Value) (h : dget e k = none) :
    pyEqKey k v e = false := by
  induction e with
  | nil => simp [pyEqKey]
  | cons p e ih =>
    obtain ⟨k1, w1⟩ := p
    by_cases hk : k1 = k
    · subst hk; simp [dget] at h
    · simp [dget, hk] at h
      simp [pyEqKey, hk, ih h]

theorem pyEqEntries_mem {d e : Dict} (h : pyEqEntries d e = true) {k : String}
    {v : Value} (hm : (k, v) ∈ d) : pyEqKey k v e = true := by
  induction d with
  | nil => simp at hm
  | cons p d ih =>
    obtain ⟨k1, v1⟩ := p
    rw [pyEqEntries] at h
    rcases List.mem_cons.mp hm with he | hm'
    · obtain ⟨h1, h2⟩ := Prod.mk.injEq .. ▸ he
      subst h1; subst h2
      exact (Bool.and_eq_true ..|>.mp h).1
    · exact ih (Bool.and_eq_true ..|>.mp h).2 hm'

theorem pyEqEntries_of {d e : Dict} (h : ∀ p ∈ d, pyEqKey p.1 p.2 e = true) :
    pyEqEntries d e = true := by
  induction d with
  | nil => rw [pyEqEntries]
  | cons p d ih =>
    obtain ⟨k1, v1⟩ := p
    rw [pyEqEntries, Bool.and_eq_true]
    exact ⟨h (k1, v1) (by simp), ih fun q hq => h q (List.mem_cons_of_mem _ hq)⟩

theorem pyEqD_iff {x y : Dict} :
    pyEqD x y = true ↔ x.length = y.length ∧ pyEqEntries x y = true := by
  rw [pyEqD, Bool.and_eq_true, Nat.beq_eq_true_eq]

theorem pyEqD_dget {x y : Dict} (h : pyEqD x y = true) {k : String} {v : Value}
    (hm : (k, v) ∈ x) : ∃ w, dget y k = some w ∧ pyEq v w = true := by
  have hkey := pyEqEntries_mem (pyEqD_iff.mp h).2 hm
  cases hg : dget y k with
  | none => rw [pyEqKey_none v hg] at hkey; exact absurd hkey (by simp)
  | some w => rw [pyEqKey_some v hg] at hkey; exact ⟨w, rfl, hkey⟩

theorem pyEqD_keys_sub {x y : Dict} (h : pyEqD x y = true) : dkeys x ⊆ dkeys y := by
  intro k hk
  rcases mem_dkeys.mp hk with ⟨v, hm⟩
  rcases pyEqD_dget h hm with ⟨w, hg, _⟩
  exact dget_isSome_iff.mp (by simp [hg])

theorem pyEqD_keys_perm {x y : Dict} (h : pyEqD x y = true)
    (hnx : (dkeys x).Nodup) : List.Perm (dkeys x) (dkeys y) := by
  have hsub := pyEqD_keys_sub h
  have hlen : (dkeys y).length ≤ (dkeys x).length := by
    rw [dkeys_length, dkeys_length, (pyEqD_iff.mp h).1]
  exact (List.subperm_of_subset hnx hsub).perm_of_length_le hlen

theorem pyEqD_dget_rev {x y : Dict} (h : pyEqD x y = true)
    (hnx : (dkeys x).Nodup) {k : String} {yv : Value} (hg : dget y k = some yv) :
    ∃ xv, dget x k = some xv ∧ pyEq xv yv = true := by
  have hky : k ∈ dkeys y := dget_isSome_iff.mp (by simp [hg])
  have hkx : k ∈ dkeys x := (pyEqD_keys_perm h hnx).mem_iff.mpr hky
  rcases Option.isSome_iff_exists.mp (dget_isSome_iff.mpr hkx) with ⟨xv, hgx⟩
  rcases pyEqD_dget h (dget_mem hgx) with ⟨w, hgw, he⟩
  rw [hg] at hgw
  cases hgw
  exact ⟨xv, hgx, he⟩

theorem pyEqD_dictSet {x y : Dict} (h : pyEqD x y = true) (hnx : (dkeys x).Nodup)
    {k : String} {w v : Value} (hg : dget y k = some w) (he : pyEq v w = true) :
    pyEqD (dictSet x k v) y = true := by
  have hkx : k ∈ dkeys x :=
    (pyEqD_keys_perm h hnx).mem_iff.mpr (dget_isSome_iff.mp (by simp [hg]))
  refine pyEqD_iff.mpr ⟨by rw [length_dictSet_mem v hkx, (pyEqD_iff.mp h).1], ?_⟩
  refine pyEqEntries_of fun p hp => ?_
  rcases mem_dictSet hnx hp with hpe | ⟨hpx, _⟩
  · subst hpe
    rw [pyEqKey_some v hg]
    exact he
  · obtain ⟨k', v'⟩ := p
    exact pyEqEntries_mem (pyEqD_iff.mp h).2 hpx

theorem one_le_sizeOf_value (v : Value) : 1 ≤ sizeOf v := by
  cases v <;> simp

theorem pyEqRefl_fuel (n : Nat) :
    (∀ v : Value, sizeOf v ≤ n → wfV v = true → pyEq v v = true) ∧
    (∀ l : List Value, sizeOf l ≤ n → wfL l = true → pyEqL l l = true) ∧
    (∀ d : Dict, sizeOf d ≤ n → wfD d = true → pyEqD d d = true) := by
  induction n with
  | zero =>
    refine ⟨fun v hs _ => ?_, fun l hs _ => ?_, fun d hs _ => ?_⟩
    · exact absurd hs (by have := one_le_sizeOf_value v; omega)
    · cases l <;> simp at hs
    · cases d <;> simp at hs
  | succ n ih =>
    obtain ⟨ihv, ihl, ihd⟩ := ih
    refine ⟨fun v hs hw => ?_, fun l hs hw => ?_, fun d hs hw => ?_⟩
    · cases v with
      | vnull => simp [pyEq]
      | vbool b => simp [pyEq]
      | vint i => simp [pyEq]
      | vstr s => simp [pyEq]
      | vlist l =>
        rw [wfV] at hw
        simp only [Value.vlist.sizeOf_spec] at hs
        simp only [pyEq]
        exact ihl l (by omega) hw
      | vdict d =>
        rw [wfV] at hw
        simp only [Value.vdict.sizeOf_spec] at hs
        simp only [pyEq]
        exact ihd d (by omega) hw
    · cases l with
      | nil => simp [pyEqL]
      | cons v l =>
        rw [wfL, Bool.and_eq_true] at hw
        simp only [List.cons.sizeOf_spec] at hs
        simp only [pyEqL, Bool.and_eq_true]
        exact ⟨ihv v (by omega) hw.1, ihl l (by omega) hw.2⟩
    · refine pyEqD_iff.mpr ⟨rfl, pyEqEntries_of fun p hp => ?_⟩
      have hg : dget d p.1 = some p.2 := mem_dget (wfD_nodup hw) (by simpa using hp)
      rw [pyEqKey_some p.2 hg]
      have hsp : sizeOf p < sizeOf d := List.sizeOf_lt_of_mem hp
      obtain ⟨k, v⟩ := p
      simp only [Prod.mk.sizeOf_spec] at hsp
      exact ihv v (by omega) (wfD_mem_value hw (by simpa using hp))

theorem pyEq_refl {v : Value} (h : wfV v = true) : pyEq v v = true :=
  (pyEqRefl_fuel (sizeOf v)).1 v le_rfl h

theorem pyEqL_refl {l : List Value} (h : wfL l = true) : pyEqL l l = true :=
  (pyEqRefl_fuel (sizeOf l)).2.1 l le_rfl h

theorem pyEqD_refl {d : Dict} (h : wfD d = true) : pyEqD d d = true :=
  (pyEqRefl_fuel (sizeOf d)).2.2 d le_rfl h

theorem pyEqL_mem_contains {xl yl : List Value} (h : pyEqL xl yl = true)
    {z : Value} (hz : z ∈ xl) : pyContains yl z = true := by
  induction xl generalizing yl with
  | nil => simp at hz
  | cons a l ih =>
    cases yl with
    | nil => simp [pyEqL] at h
    | cons b m =>
      rw [pyEqL, Bool.and_eq_true] at h
      rcases List.mem_cons.mp hz with he | hm
      · subst he
        simp [pyContains, h.1]
      · have := ih h.2 hm
        simp only [pyContains, List.any_cons, Bool.or_eq_true]
        exact .inr (by simpa [pyContains] using this)

theorem filter_not_contains_eq_nil {xl yl : List Value} (h : pyEqL xl yl = true) :
    xl.filter (fun z => !pyContains yl z) = [] := by
  refine List.filter_eq_nil_iff.mpr fun z hz => ?_
  simp [pyEqL_mem_contains h hz]

/-!
Lemmas about the per-key step and the merge loops.
-/

theorem mergeStep_eq_dictSet (x : Dict) (k : String) (o : Option Value) (yv : Value)
    (r : Bool) (lm : ListMerge) : ∃ w, mergeStep x k o yv r lm = dictSet x k w := by
  cases o with
  | none => exact ⟨yv, by simp [mergeStep]⟩
  | some xv =>
    cases xv <;> cases yv <;> cases r <;> (simp only [mergeStep]; exact ⟨_, rfl⟩)

theorem slowStep_eq_dictSet (x : Dict) (k : String) (o : Option Value) (yv : Value)
    (r : Bool) (lm : ListMerge) : ∃ w, slowStep x k o yv r lm = dictSet x k w := by
  cases o with
  | none => exact ⟨yv, by simp [slowStep]⟩
  | some xv =>
    cases xv <;> cases yv <;> cases r <;> (simp only [slowStep]; exact ⟨_, rfl⟩)

theorem mergeLoop_dget_not_mem {y : Dict} {k : String} (h : k ∉ dkeys y) :
    ∀ x r lm, dget (mergeLoop x y r lm) k = dget x k := by
  induction y with
  | nil => intro x r lm; rw [mergeLoop]
  | cons p rest ih =>
    intro x r lm
    obtain ⟨k1, yv⟩ := p
    have hk : k ≠ k1 := fun he => h (by simp [he])
    have h' : k ∉ dkeys rest := fun hm => h (by simp [hm])
    rw [mergeLoop, ih h']
    rcases mergeStep_eq_dictSet x k1 (dget x k1) yv r lm with ⟨w, hw⟩
    rw [hw, dget_dictSet_ne x w hk]

theorem mergeLoop_dget_list {y : Dict} (hn : (dkeys y).Nodup) {k : String}
    {yl : List Value} (hm : (k, Value.vlist yl) ∈ y) :
    ∀ x r lm xl, dget x k = some (.vlist xl) →
    dget (mergeLoop x y r lm) k = some (.vlist (combineLists lm xl yl)) := by
  induction y with
  | nil => simp at hm
  | cons p rest ih =>
    intro x r lm xl hg
    obtain ⟨k1, yv1⟩ := p
    simp only [dkeys_cons, List.nodup_cons] at hn
    rcases List.mem_cons.mp hm with he | hm'
    · obtain ⟨h1, h2⟩ := Prod.mk.injEq .. ▸ he
      subst h1
      rw [mergeLoop]
      have hrest : k ∉ dkeys rest := hn.1
      rw [mergeLoop_dget_not_mem hrest]
      rw [hg, ← h2]
      simp only [mergeStep]
      exact dget_dictSet_self x k _
    · have hk : k ≠ k1 := by
        intro he
        exact hn.1 (he ▸ mem_dkeys.mpr ⟨_, hm'⟩)
      rw [mergeLoop]
      refine ih hn.2 hm' _ r lm xl ?_
      rcases mergeStep_eq_dictSet x k1 (dget x k1) yv1 r lm with ⟨w, hw⟩
      rw [hw, dget_dictSet_ne x w hk, hg]

theorem updateAll_dget_not_mem {y : Dict} {k : String} (h : k ∉ dkeys y) :
    ∀ x, dget (updateAll x y) k = dget x k := by
  induction y with
  | nil => intro x; rfl
  | cons p rest ih =>
    intro x
    obtain ⟨k1, yv⟩ := p
    have hk : k ≠ k1 := fun he => h (by simp [he])
    have h' : k ∉ dkeys rest := fun hm => h (by simp [hm])
    rw [updateAll, ih h', dget_dictSet_ne x yv hk]

theorem updateAll_dget_mem {y : Dict} (hn : (dkeys y).Nodup) {k : String}
    {yv : Value} (hm : (k, yv) ∈ y) : ∀ x, dget (updateAll x y) k = some yv := by
  induction y with
  | nil => simp at hm
  | cons p rest ih =>
    intro x
    obtain ⟨k1, yv1⟩ := p
    simp only [dkeys_cons, List.nodup_cons] at hn
    rcases List.mem_cons.mp hm with he | hm'
    · obtain ⟨h1, h2⟩ := Prod.mk.injEq .. ▸ he
      subst h1; subst h2
      rw [updateAll, updateAll_dget_not_mem hn.1, dget_dictSet_self]
    · rw [updateAll]
      exact ih hn.2 hm' _

theorem slowStep_replace (x : Dict) (k : String) (o : Option Value) (yv : Value) :
    slowStep x k o yv false .replace = dictSet x k yv := by
  cases o with
  | none => simp [slowStep]
  | some xv => cases xv <;> cases yv <;> simp [slowStep, combineLists]

theorem mergeLoopSlow_replace (y : Dict) :
    ∀ x, mergeLoopSlow x y false .replace = updateAll x y := by
  induction y with
  | nil => intro x; rw [mergeLoopSlow]; rfl
  | cons p rest ih =>
    intro x
    obtain ⟨k, yv⟩ := p
    rw [mergeLoopSlow, slowStep_replace, updateAll, ih]

theorem dkeys_append (a b : Dict) : dkeys (a ++ b) = dkeys a ++ dkeys b :=
  List.map_append ..

theorem mergeLoopSlow_disjoint (y : Dict) :
    ∀ x r lm, (∀ k ∈ dkeys y, k ∉ dkeys x) → (dkeys y).Nodup →
    mergeLoopSlow x y r lm = x ++ y := by
  induction y with
  | nil => intro x r lm _ _; rw [mergeLoopSlow]; simp
  | cons p rest ih =>
    intro x r lm hdisj hn
    obtain ⟨k, yv⟩ := p
    simp only [dkeys_cons, List.nodup_cons] at hn
    have hkx : k ∉ dkeys x := hdisj k (by simp)
    have hg : dget x k = none := dget_eq_none_iff.mpr hkx
    rw [mergeLoopSlow, hg]
    simp only [slowStep]
    rw [dictSet_not_mem yv hkx]
    rw [ih (x ++ [(k, yv)]) r lm ?_ hn.2]
    · simp
    · intro k' hk'
      rw [dkeys_append]
      intro hmem
      rcases List.mem_append.mp hmem with hmx | hmk
      · exact hdisj k' (by simp [hk']) hmx
      · have : k' = k := by simpa using hmk
        exact hn.1 (this ▸ hk')

/-- Invariant of the general per-key path: if the accumulator is
Python-equal to `y` and every processed entry is an entry of `y`, then for
the four policies other than `append`/`prepend` the loop keeps the
accumulator Python-equal to `y` (and well-formed). -/
theorem slowInv (n : Nat) : ∀ (rest y x : Dict) (r : Bool) (lm : ListMerge),
    sizeOf rest ≤ n → lm ≠ .append → lm ≠ .prepend →
    wfD y = true → wfD x = true →
    (∀ p ∈ rest, dget y p.1 = some p.2) →
    pyEqD x y = true →
    pyEqD (mergeLoopSlow x rest r lm) y = true ∧
      wfD (mergeLoopSlow x rest r lm) = true := by
  induction n with
  | zero =>
    intro rest y x r lm hs _ _ _ _ _ _
    cases rest <;> simp at hs
  | succ n ih =>
    intro rest y x r lm hs ha hp hwy hwx hsub hxy
    cases rest with
    | nil => rw [mergeLoopSlow]; exact ⟨hxy, hwx⟩
    | cons q rest' =>
      obtain ⟨k, yv⟩ := q
      have hgy : dget y k = some yv := hsub (k, yv) (by simp)
      have hwyv : wfV yv = true := wfD_dget_value hwy hgy
      rcases pyEqD_dget_rev hxy (wfD_nodup hwx) hgy with ⟨xv, hgx, hexy⟩
      have hwxv : wfV xv = true := wfD_dget_value hwx hgx
      have hstep : ∃ v', slowStep x k (dget x k) yv r lm = dictSet x k v' ∧
          pyEq v' yv = true ∧ wfV v' = true := by
        rw [hgx]
        cases xv with
        | vdict xd =>
          cases yv with
          | vdict yd =>
            have hpd : pyEqD xd yd = true := by simpa [pyEq] using hexy
            have hwxd : wfD xd = true := by rw [wfV] at hwxv; exact hwxv
            have hwyd : wfD yd = true := by rw [wfV] at hwyv; exact hwyv
            cases r with
            | false => exact ⟨.vdict yd, by simp only [slowStep], pyEq_refl hwyv, hwyv⟩
            | true =>
              have hsz : sizeOf yd ≤ n := by
                simp only [List.cons.sizeOf_spec, Prod.mk.sizeOf_spec,
                  Value.vdict.sizeOf_spec] at hs
                omega
              have hnested := ih yd yd xd true lm hsz ha hp hwyd hwxd
                (fun p hp' => by
                  obtain ⟨a, b⟩ := p
                  exact mem_dget (wfD_nodup hwyd) hp') hpd
              refine ⟨.vdict (mergeLoopSlow xd yd true lm), by simp only [slowStep], ?_, ?_⟩
              · simpa [pyEq] using hnested.1
              · rw [wfV]; exact hnested.2
          | vnull => exact absurd hexy (by simp [pyEq])
          | vbool b => exact absurd hexy (by simp [pyEq])
          | vint i => exact absurd hexy (by simp [pyEq])
          | vstr s => exact absurd hexy (by simp [pyEq])
          | vlist l => exact absurd hexy (by simp [pyEq])
        | vlist xl =>
          cases yv with
          | vlist yl =>
            have hpl : pyEqL xl yl = true := by simpa [pyEq] using hexy
            have hwyl : wfL yl = true := by rw [wfV] at hwyv; exact hwyv
            have hwxl : wfL xl = true := by rw [wfV] at hwxv; exact hwxv
            refine ⟨.vlist (combineLists lm xl yl), by simp only [slowStep], ?_, ?_⟩
            · cases lm with
              | replace => simpa [combineLists, pyEq] using pyEqL_refl hwyl
              | keep => simpa [combineLists, pyEq] using hpl
              | append => exact absurd rfl ha
              | prepend => exact absurd rfl hp
              | append_rp =>
                simpa [combineLists, pyEq, filter_not_contains_eq_nil hpl] using
                  pyEqL_refl hwyl
              | prepend_rp =>
                simpa [combineLists, pyEq, filter_not_contains_eq_nil hpl] using
                  pyEqL_refl hwyl
            · rw [wfV]
              cases lm with
              | replace => simpa [combineLists] using hwyl
              | keep => simpa [combineLists] using hwxl
              | append => exact absurd rfl ha
              | prepend => exact absurd rfl hp
              | append_rp =>
                simpa [combineLists, filter_not_contains_eq_nil hpl] using hwyl
              | prepend_rp =>
                simpa [combineLists, filter_not_contains_eq_nil hpl] using hwyl
          | vnull => exact absurd hexy (by simp [pyEq])
          | vbool b => exact absurd hexy (by simp [pyEq])
          | vint i => exact absurd hexy (by simp [pyEq])
          | vstr s => exact absurd hexy (by simp [pyEq])
          | vdict d => exact absurd hexy (by simp [pyEq])
        | vnull =>
          cases yv <;> exact ⟨_, by simp only [slowStep], pyEq_refl hwyv, hwyv⟩
        | vbool b =>
          cases yv <;> exact ⟨_, by simp only [slowStep], pyEq_refl hwyv, hwyv⟩
        | vint i =>
          cases yv <;> exact ⟨_, by simp only [slowStep], pyEq_refl hwyv, hwyv⟩
        | vstr s =>
          cases yv <;> exact ⟨_, by simp only [slowStep], pyEq_refl hwyv, hwyv⟩
      rcases hstep with ⟨v', hsv, hev, hwv⟩
      rw [mergeLoopSlow, hsv]
      have hsize : sizeOf rest' ≤ n := by
        simp only [List.cons.sizeOf_spec] at hs
        omega
      exact ih rest' y (dictSet x k v') r lm hsize ha hp hwy (wfD_dictSet hwx hwv)
        (fun p hp' => hsub p (List.mem_cons_of_mem _ hp'))
        (pyEqD_dictSet hxy (wfD_nodup hwx) hgy hev)

/-!
Order lemmas for the code-point string comparison used by `sorted`.
-/

theorem char_toNat_inj {a b : Char} (h : a.toNat = b.toNat) : a = b :=
  Char.ext (UInt32.ext h)

theorem lexLeChars_total : ∀ as bs : List Char,
    lexLeChars as bs = true ∨ lexLeChars bs as = true := by
  intro as
  induction as with
  | nil => intro bs; left; rw [lexLeChars]
  | cons a as' ih =>
    intro bs
    cases bs with
    | nil => right; rw [lexLeChars]
    | cons b bs' =>
      rw [lexLeChars, lexLeChars]
      rcases Nat.lt_trichotomy a.toNat b.toNat with h | h | h
      · left; simp [h]
      · have hnlt : ¬a.toNat < b.toNat := by omega
        have hnlt' : ¬b.toNat < a.toNat := by omega
        rcases ih bs' with h' | h'
        · left; simp [hnlt, h, h']
        · right; simp [hnlt', h.symm, h']
      · right; simp [h]

theorem lexLeChars_trans : ∀ as bs cs : List Char, lexLeChars as bs = true →
    lexLeChars bs cs = true → lexLeChars as cs = true := by
  intro as
  induction as with
  | nil => intro bs cs _ _; rw [lexLeChars]
  | cons a as' ih =>
    intro bs cs h1 h2
    cases bs with
    | nil => rw [lexLeChars] at h1; exact absurd h1 (by simp)
    | cons b bs' =>
      cases cs with
      | nil => rw [lexLeChars] at h2; exact absurd h2 (by simp)
      | cons c cs' =>
        rw [lexLeChars] at h1 h2 ⊢
        by_cases hab : a.toNat < b.toNat
        · by_cases hbc : b.toNat < c.toNat
          · simp [Nat.lt_trans hab hbc]
          · rw [if_neg hbc] at h2
            by_cases hbc2 : b.toNat = c.toNat
            · have : a.toNat < c.toNat := hbc2 ▸ hab
              simp [this]
            · rw [if_neg hbc2] at h2; exact absurd h2 (by simp)
        · rw [if_neg hab] at h1
          by_cases hab2 : a.toNat = b.toNat
          · rw [if_pos hab2] at h1
            by_cases hbc : b.toNat < c.toNat
            · have : a.toNat < c.toNat := hab2 ▸ hbc
              simp [this]
            · rw [if_neg hbc] at h2
              by_cases hbc2 : b.toNat = c.toNat
              · rw [if_pos hbc2] at h2
                have hac : a.toNat = c.toNat := hab2.trans hbc2
                have hlt : ¬a.toNat < c.toNat := by omega
                rw [if_neg hlt, if_pos hac]
                exact ih bs' cs' h1 h2
              · rw [if_neg hbc2] at h2; exact absurd h2 (by simp)
          · rw [if_neg hab2] at h1; exact absurd h1 (by simp)

theorem lexLeChars_antisymm : ∀ as bs : List Char, lexLeChars as bs = true →
    lexLeChars bs as = true → as = bs := by
  intro as
  induction as with
  | nil =>
    intro bs _ h2
    cases bs with
    | nil => rfl
    | cons b bs' => rw [lexLeChars] at h2; exact absurd h2 (by simp)
  | cons a as' ih =>
    intro bs h1 h2
    cases bs with
    | nil => rw [lexLeChars] at h1; exact absurd h1 (by simp)
    | cons b bs' =>
      rw [lexLeChars] at h1 h2
      by_cases hab : a.toNat < b.toNat
      · have hn1 : ¬b.toNat < a.toNat := by omega
        have hn2 : ¬b.toNat = a.toNat := by omega
        rw [if_neg hn1, if_neg hn2] at h2
        exact absurd h2 (by simp)
      · rw [if_neg hab] at h1
        by_cases hab2 : a.toNat = b.toNat
        · rw [if_pos hab2] at h1
          have hn1 : ¬b.toNat < a.toNat := by omega
          rw [if_neg hn1, if_pos hab2.symm] at h2
          rw [char_toNat_inj hab2, ih bs' h1 h2]
        · rw [if_neg hab2] at h1; exact absurd h1 (by simp)

theorem strLeB_total (a b : String) : strLeB a b = true ∨ strLeB b a = true :=
  lexLeChars_total a.data b.data

theorem strLeB_trans {a b c : String} (h1 : strLeB a b = true)
    (h2 : strLeB b c = true) : strLeB a c = true :=
  lexLeChars_trans a.data b.data c.data h1 h2

theorem strLeB_antisymm {a b : String} (h1 : strLeB a b = true)
    (h2 : strLeB b a = true) : a = b :=
  String.ext (lexLeChars_antisymm a.data b.data h1 h2)

theorem sortStrs_perm (l : List String) : List.Perm (sortStrs l) l :=
  List.perm_insertionSort _ l

theorem sortStrs_eq_of_perm {l1 l2 : List String} (h : List.Perm l1 l2) :
    sortStrs l1 = sortStrs l2 := by
  haveI : IsTotal String (fun a b => strLeB a b = true) := ⟨strLeB_total⟩
  haveI : IsTrans String (fun a b => strLeB a b = true) :=
    ⟨fun _ _ _ => strLeB_trans⟩
  haveI : IsAntisymm String (fun a b => strLeB a b = true) :=
    ⟨fun _ _ => strLeB_antisymm⟩
  exact List.eq_of_perm_of_sorted
    ((sortStrs_perm l1).trans (h.trans (sortStrs_perm l2).symm))
    (List.sorted_insertionSort _ l1) (List.sorted_insertionSort _ l2)

/-!
Support lemmas for the two consumer plugins.
-/

theorem dget_perm_eq {vars1 vars2 : Dict} (hperm : List.Perm vars1 vars2)
    (hn : (dkeys vars1).Nodup) (k : String) : dget vars1 k = dget vars2 k := by
  have hkeys : List.Perm (dkeys vars1) (dkeys vars2) := hperm.map _
  have hn2 : (dkeys vars2).Nodup := hkeys.nodup_iff.mp hn
  cases hx : dget vars1 k with
  | none =>
    have : k ∉ dkeys vars2 := fun hm =>
      (dget_eq_none_iff.mp hx) (hkeys.mem_iff.mpr hm)
    exact (dget_eq_none_iff.mpr this).symm
  | some v =>
    exact (mem_dget hn2 (hperm.mem_iff.mp (dget_mem hx))).symm

theorem ebnFold_congr {render : Value → Value} {vars1 vars2 : Dict}
    (h : ∀ k, dget vars1 k = dget vars2 k) :
    ∀ (ns : List String) (ret : Value),
    ebnFold render vars1 ns ret = ebnFold render vars2 ns ret := by
  intro ns
  induction ns with
  | nil => intro ret; rfl
  | cons n ns' ih =>
    intro ret
    rw [ebnFold, ebnFold, dgetD, dgetD, h n]
    cases ebnStep ret n (render ((dget vars2 n).getD .vnull)) with
    | error e => rfl
    | ok ret' => exact ih ret'

theorem ebnFold_list_error {render : Value → Value} {vars : Dict} {n : String}
    (hv : ∀ vl, render (dgetD vars n .vnull) ≠ .vlist vl) :
    ∀ (ns : List String) (rl : List Value), n ∈ ns →
    ∃ e, ebnFold render vars ns (.vlist rl) = .error e := by
  intro ns
  induction ns with
  | nil => intro rl h; simp at h
  | cons m ns' ih =>
    intro rl hmem
    rw [ebnFold]
    cases hr : render (dgetD vars m .vnull) with
    | vlist vl =>
      have hne : n ≠ m := fun he => hv vl (he ▸ hr)
      have hmem' : n ∈ ns' := by
        rcases List.mem_cons.mp hmem with he | hm'
        · exact absurd he hne
        · exact hm'
      simp only [ebnStep]
      exact ih (rl ++ vl) hmem'
    | vnull =>
      exact ⟨"Value type of " ++ m ++ " must be list, same as the default value", rfl⟩
    | vbool b =>
      exact ⟨"Value type of " ++ m ++ " must be list, same as the default value", rfl⟩
    | vint i =>
      exact ⟨"Value type of " ++ m ++ " must be list, same as the default value", rfl⟩
    | vstr s =>
      exact ⟨"Value type of " ++ m ++ " must be list, same as the default value", rfl⟩
    | vdict d =>
      exact ⟨"Value type of " ++ m ++ " must be list, same as the default value", rfl⟩

theorem findDist_eq_none {vars : Dict} {pfx : String} :
    ∀ order : List String, (∀ sfx ∈ order, getValue vars pfx sfx = .vnull) →
    findDist vars pfx order = none := by
  intro order
  induction order with
  | nil => intro _; rfl
  | cons s rest ih =>
    intro h
    rw [findDist]
    simp only [h s (by simp), isNull, if_pos]
    exact ih fun sfx hm => h sfx (List.mem_cons_of_mem _ hm)

/-!
The claims.
-/

/-- C1 (code bug): the claimed list-combination table is the documented
intent of the cited combine_dict_vars.py copy of `merge_hash` (its inline
comments and the spec describe exactly these six combinations), but that
copy can never produce it: every invocation reaching the per-key loop
raises NameError on the undefined `iteritems` (line 82) before the list
branch of lines 106-127 runs, so those lines are dead code there.  On the
claim's own example — base `{"k": [1,2,3]}`, overlay `{"k": [3,4,5]}`,
recursive merge — the cited copy crashes for all six policies, while the
functional duplicate of the same algorithm in default4dist.py produces
under the key exactly `combineLists`, whose six combinations on
`[1,2,3]`/`[3,4,5]` are the claimed `[3,4,5]`, `[1,2,3]`, `[1,2,3,3,4,5]`,
`[3,4,5,1,2,3]`, `[1,2,3,4,5]` and `[3,4,5,1,2]`. -/
theorem claimC1 :
    (merge_hash_cdv [("k", Value.vlist [Value.vint 1, Value.vint 2, Value.vint 3])]
        [("k", Value.vlist [Value.vint 3, Value.vint 4, Value.vint 5])] true "replace"
      = .error nameErrIteritems ∧
     merge_hash_cdv [("k", Value.vlist [Value.vint 1, Value.vint 2, Value.vint 3])]
        [("k", Value.vlist [Value.vint 3, Value.vint 4, Value.vint 5])] true "keep"
      = .error nameErrIteritems ∧
     merge_hash_cdv [("k", Value.vlist [Value.vint 1, Value.vint 2, Value.vint 3])]
        [("k", Value.vlist [Value.vint 3, Value.vint 4, Value.vint 5])] true "append"
      = .error nameErrIteritems ∧
     merge_hash_cdv [("k", Value.vlist [Value.vint 1, Value.vint 2, Value.vint 3])]
        [("k", Value.vlist [Value.vint 3, Value.vint 4, Value.vint 5])] true "prepend"
      = .error nameErrIteritems ∧
     merge_hash_cdv [("k", Value.vlist [Value.vint 1, Value.vint 2, Value.vint 3])]
        [("k", Value.vlist [Value.vint 3, Value.vint 4, Value.vint 5])] true "append_rp"
      = .error nameErrIteritems ∧
     merge_hash_cdv [("k", Value.vlist [Value.vint 1, Value.vint 2, Value.vint 3])]
        [("k", Value.vlist [Value.vint 3, Value.vint 4, Value.vint 5])] true "prepend_rp"
      = .error nameErrIteritems) ∧
    (∀ lm : ListMerge,
      dget (mergeHash [("k", Value.vlist [Value.vint 1, Value.vint 2, Value.vint 3])]
          [("k", Value.vlist [Value.vint 3, Value.vint 4, Value.vint 5])] true lm) "k"
        = some (.vlist (combineLists lm [Value.vint 1, Value.vint 2, Value.vint 3]
            [Value.vint 3, Value.vint 4, Value.vint 5]))) ∧
    (combineLists .replace [Value.vint 1, Value.vint 2, Value.vint 3]
        [Value.vint 3, Value.vint 4, Value.vint 5]
      = [Value.vint 3, Value.vint 4, Value.vint 5] ∧
     combineLists .keep [Value.vint 1, Value.vint 2, Value.vint 3]
        [Value.vint 3, Value.vint 4, Value.vint 5]
      = [Value.vint 1, Value.vint 2, Value.vint 3] ∧
     combineLists .append [Value.vint 1, Value.vint 2, Value.vint 3]
        [Value.vint 3, Value.vint 4, Value.vint 5]
      = [Value.vint 1, Value.vint 2, Value.vint 3,
         Value.vint 3, Value.vint 4, Value.vint 5] ∧
     combineLists .prepend [Value.vint 1, Value.vint 2, Value.vint 3]
        [Value.vint 3, Value.vint 4, Value.vint 5]
      = [Value.vint 3, Value.vint 4, Value.vint 5,
         Value.vint 1, Value.vint 2, Value.vint 3] ∧
     combineLists .append_rp [Value.vint 1, Value.vint 2, Value.vint 3]
        [Value.vint 3, Value.vint 4, Value.vint 5]
      = [Value.vint 1, Value.vint 2, Value.vint 3, Value.vint 4, Value.vint 5] ∧
     combineLists .prepend_rp [Value.vint 1, Value.vint 2, Value.vint 3]
        [Value.vint 3, Value.vint 4, Value.vint 5]
      = [Value.vint 3, Value.vint 4, Value.vint 5, Value.vint 1, Value.vint 2]) := by
  have hpd : pyEqD [("k", Value.vlist [Value.vint 1, Value.vint 2, Value.vint 3])]
      [("k", Value.vlist [Value.vint 3, Value.vint 4, Value.vint 5])] = false := by
    simp [pyEqD, pyEqEntries, pyEqKey, pyEq, pyEqL]
  refine ⟨⟨?_, ?_, ?_, ?_, ?_, ?_⟩, ?_, rfl, rfl, rfl, rfl, ?_, ?_⟩
  · simp [merge_hash_cdv, parseListMerge, hpd]
  · simp [merge_hash_cdv, parseListMerge, hpd]
  · simp [merge_hash_cdv, parseListMerge, hpd]
  · simp [merge_hash_cdv, parseListMerge, hpd]
  · simp [merge_hash_cdv, parseListMerge, hpd]
  · simp [merge_hash_cdv, parseListMerge, hpd]
  · intro lm
    rw [mergeHash]
    simp only [hpd, List.isEmpty_cons, Bool.or_self, Bool.false_eq_true, if_false]
    rw [if_neg (by simp)]
    exact mergeLoop_dget_list (by simp) (by simp) _ true lm _ (by simp [dget])
  · simp [combineLists, pyContains, List.any_cons, List.any_nil,
      List.filter_cons, List.filter_nil, pyEq]
  · simp [combineLists, pyContains, List.any_cons, List.any_nil,
      List.filter_cons, List.filter_nil, pyEq]

/-- C2 (corrected): in the cited combine_dict_vars.py copy, the general
per-key path evaluates the undefined name `iteritems` and raises NameError
on every invocation, so neither fast path is behaviorally equivalent to
that file's general path.  For the functional duplicate of the algorithm in
default4dist.py, whose general path (`mergeLoopSlow`, the source with the
two speed-up `if`s removed) actually merges: (1) with an empty base the
general path returns the overlay itself, and when base and overlay are
Python-equal it returns a value Python-equal to the overlay for
`list_merge` in `{replace, keep, append_rp, prepend_rp}` — but not for
`append`/`prepend`, where the general path duplicates list elements (see
the counterexample); (2) the non-recursive `replace` fast path
(`x.update(y)`) always equals the general path. -/
theorem claimC2 : ∀ (x y : Dict) (r : Bool) (lm : ListMerge),
    wfD x = true → wfD y = true →
    mergeSlow_cdv x y r lm = .error nameErrIteritems ∧
    (x = [] → mergeLoopSlow x y r lm = y) ∧
    (pyEqD x y = true → lm ≠ .append → lm ≠ .prepend →
      pyEqD (mergeLoopSlow x y r lm) y = true) ∧
    mergeLoopSlow x y false .replace = updateAll x y := by
  intro x y r lm hwx hwy
  refine ⟨rfl, ?_, ?_, mergeLoopSlow_replace y x⟩
  · intro hx
    subst hx
    simpa using mergeLoopSlow_disjoint y [] r lm (by simp) (wfD_nodup hwy)
  · intro hxy ha hp
    exact (slowInv (sizeOf y) y y x r lm le_rfl ha hp hwy hwx
      (fun p hp' => by
        obtain ⟨a, b⟩ := p
        exact mem_dget (wfD_nodup hwy) hp') hxy).1

/-- C2 counterexample: the claimed equivalence fails at concrete inputs in
both respects.  In the cited combine_dict_vars.py copy, merging `{}` with
`{"b": 2}` under `keep` succeeds through the `x == {}` fast path but its
general path raises NameError, so the fast path is not equivalent to it.
And even for the functional duplicate, with `x = y = {"a": [1]}` and
`list_merge = append` the equality fast path returns `{"a": [1]}` while the
general per-key path returns `{"a": [1,1]}`, which is not Python-equal to
it. -/
theorem claimC2_counterexample :
    merge_hash_cdv [] [("b", Value.vint 2)] true "keep" = .ok [("b", Value.vint 2)] ∧
    mergeSlow_cdv [] [("b", Value.vint 2)] true .keep = .error nameErrIteritems ∧
    pyEqD [("a", Value.vlist [Value.vint 1])] [("a", Value.vlist [Value.vint 1])] = true ∧
    mergeHash [("a", Value.vlist [Value.vint 1])] [("a", Value.vlist [Value.vint 1])]
        true .append = [("a", Value.vlist [Value.vint 1])] ∧
    pyEqD (mergeLoopSlow [("a", Value.vlist [Value.vint 1])]
        [("a", Value.vlist [Value.vint 1])] true .append)
      [("a", Value.vlist [Value.vint 1])] = false := by
  refine ⟨?_, rfl, ?_, ?_, ?_⟩
  · simp [merge_hash_cdv, parseListMerge]
  · simp [pyEqD, pyEqEntries, pyEqKey, pyEq, pyEqL]
  · rw [mergeHash]
    simp [pyEqD, pyEqEntries, pyEqKey, pyEq, pyEqL]
  · rw [mergeLoopSlow]
    simp [slowStep, dget, dictSet, combineLists, mergeLoopSlow, pyEqD,
      pyEqEntries, pyEqKey, pyEq, pyEqL]

/-- C2 witness. -/
theorem claimC2_witness :
    mergeSlow_cdv [] [("b", Value.vint 2)] true .keep = .error nameErrIteritems ∧
    ([] = ([] : Dict) → mergeLoopSlow [] [("b", Value.vint 2)] true .keep = [("b", Value.vint 2)]) ∧
    (pyEqD [] [("b", Value.vint 2)] = true → ListMerge.keep ≠ .append → ListMerge.keep ≠ .prepend →
      pyEqD (mergeLoopSlow [] [("b", Value.vint 2)] true .keep) [("b", Value.vint 2)] = true) ∧
    mergeLoopSlow [] [("b", Value.vint 2)] false .replace = updateAll [] [("b", Value.vint 2)] :=
  claimC2 [] [("b", Value.vint 2)] true .keep (by rw [wfD]) (by simp [wfD, wfV])

/-- C3 (confirmed): merging a well-formed mapping with itself returns the
mapping itself for every recursion flag and every valid `list_merge` policy
(the `x == y` fast path fires), so self-merge is the identity up to Python
value equality. -/
theorem claimC3 : ∀ (m : Dict) (r : Bool) (s : String) (lm : ListMerge),
    wfD m = true → parseListMerge s = some lm →
    merge_hash m m r s = .ok m ∧ pyEqD (mergeHash m m r lm) m = true := by
  intro m r s lm hw hp
  have hm : mergeHash m m r lm = m := by
    rw [mergeHash]
    simp [pyEqD_refl hw]
  constructor
  · simp only [merge_hash, hp, hm]
  · rw [hm]
    exact pyEqD_refl hw

/-- C3 witness. -/
theorem claimC3_witness :
    merge_hash [("a", Value.vint 1)] [("a", Value.vint 1)] true "append" = .ok [("a", Value.vint 1)] ∧
    pyEqD (mergeHash [("a", Value.vint 1)] [("a", Value.vint 1)] true .append) [("a", Value.vint 1)] = true :=
  claimC3 [("a", Value.vint 1)] true "append" .append (by simp [wfD, wfV]) rfl

theorem parseListMerge_eq_none_iff {s : String} : parseListMerge s = none ↔
    s ∉ (["replace", "keep", "append", "prepend", "append_rp", "prepend_rp"] : List String) := by
  simp only [parseListMerge]
  split_ifs with h1 h2 h3 h4 h5 h6 <;> simp_all

/-- C4 (corrected): the claim holds verbatim for the functional
default4dist.py copy — `merge_hash` fails (with the `AnsibleError` message
`mergeHashErrMsg`) exactly when the `list_merge` string is not one of the
six policy names, and each of the six names succeeds with a merged
dictionary.  The equally-cited combine_dict_vars.py copy diverges in both
directions: its invalid-policy branch raises NameError on the undefined
`AnsibleError` rather than the validation error, and a valid policy can
still fail — whenever the general per-key loop is reached (base non-empty
and not Python-equal to the overlay, and not the non-recursive `replace`
path) that copy raises NameError on the undefined `iteritems`. -/
theorem claimC4 : ∀ (x y : Dict) (r : Bool) (s : String),
    ((merge_hash x y r s = .error mergeHashErrMsg) ↔
      s ∉ (["replace", "keep", "append", "prepend", "append_rp", "prepend_rp"] : List String)) ∧
    (s ∈ (["replace", "keep", "append", "prepend", "append_rp", "prepend_rp"] : List String) →
      ∃ d, merge_hash x y r s = .ok d) ∧
    (s ∉ (["replace", "keep", "append", "prepend", "append_rp", "prepend_rp"] : List String) →
      merge_hash_cdv x y r s = .error nameErrAnsibleError) ∧
    (∀ lm, parseListMerge s = some lm → x.isEmpty = false → pyEqD x y = false →
      ¬(r = false ∧ lm = .replace) → merge_hash_cdv x y r s = .error nameErrIteritems) := by
  intro x y r s
  cases hp : parseListMerge s with
  | none =>
    have hnot := parseListMerge_eq_none_iff.mp hp
    refine ⟨?_, ?_, ?_, ?_⟩
    · simp [merge_hash, hp, hnot]
    · intro hmem
      exact absurd hmem hnot
    · intro _
      simp [merge_hash_cdv, hp]
    · intro lm heq
      exact Option.noConfusion heq
  | some lm0 =>
    have hmem : s ∈ (["replace", "keep", "append", "prepend", "append_rp", "prepend_rp"] : List String) := by
      by_contra hno
      rw [parseListMerge_eq_none_iff.mpr hno] at hp
      cases hp
    refine ⟨?_, fun _ => ⟨mergeHash x y r lm0, by simp [merge_hash, hp]⟩,
      fun hno => absurd hmem hno, ?_⟩
    · simp [merge_hash, hp, hmem]
    · intro lm heq hie hpd hnrl
      injection heq with heq'
      subst heq'
      simp [merge_hash_cdv, hp, hie, hpd, hnrl]

/-- C4 counterexample: in the combine_dict_vars.py copy an unrecognized
`list_merge` raises a NameError that is not the validation error, and the
valid policy `replace` with a recursive merge of unequal non-empty mappings
also fails (NameError on `iteritems`) — refuting, for that copy, both
directions of the claimed "fails iff invalid `list_merge`". -/
theorem claimC4_counterexample :
    merge_hash_cdv [] [] true "bogus" = .error nameErrAnsibleError ∧
    nameErrAnsibleError ≠ mergeHashErrMsg ∧
    merge_hash_cdv [("a", Value.vint 1)] [("b", Value.vint 2)] true "replace"
      = .error nameErrIteritems := by
  refine ⟨?_, ?_, ?_⟩
  · simp [merge_hash_cdv, parseListMerge]
  · decide
  · have hpd : pyEqD [("a", Value.vint 1)] [("b", Value.vint 2)] = false := by
      simp [pyEqD, pyEqEntries, pyEqKey]
    simp [merge_hash_cdv, parseListMerge, hpd]

/-- C4 witness. -/
theorem claimC4_witness :
    ((merge_hash [] [] true "bogus" = .error mergeHashErrMsg) ↔
      "bogus" ∉ (["replace", "keep", "append", "prepend", "append_rp", "prepend_rp"] : List String)) ∧
    (∃ d, merge_hash [] [] true "keep" = .ok d) ∧
    merge_hash_cdv [] [] true "bogus" = .error nameErrAnsibleError ∧
    merge_hash_cdv [("a", Value.vint 1)] [("b", Value.vint 2)] true "keep"
      = .error nameErrIteritems :=
  ⟨(claimC4 [] [] true "bogus").1,
   (claimC4 [] [] true "keep").2.1 (by decide),
   (claimC4 [] [] true "bogus").2.2.1 (by decide),
   (claimC4 [("a", Value.vint 1)] [("b", Value.vint 2)] true "keep").2.2.2 .keep rfl rfl
     (by simp [pyEqD, pyEqEntries, pyEqKey]) (by decide)⟩

/-- C5 (code bug): the source's DOCUMENTATION promises a fixed
most-specific-to-least-specific precedence among the suffix candidates, but
the code pours the eight suffix strings into a Python `set` literal and
iterates it, so the scan order is whatever the set yields.  Evaluating the
resolver on a variables mapping that binds both `_app_debian_10` (most
specific) and `_app_debian` (least specific) under two admissible iteration
orders of the same suffix set returns two different results. -/
theorem claimC5 :
    List.Perm ["debian_10", "debian_buster", "debian"]
      ((suffixPool "debian" "debian" "10" "10" "buster").dedup) ∧
    List.Perm ["debian", "debian_10", "debian_buster"]
      ((suffixPool "debian" "debian" "10" "10" "buster").dedup) ∧
    d4dResolve ["debian_10", "debian_buster", "debian"]
      [("_app_debian_10", .vstr "X"), ("_app_debian", .vstr "Y")] "_app" false .replace
      = .ok (.vstr "X") ∧
    d4dResolve ["debian", "debian_10", "debian_buster"]
      [("_app_debian_10", .vstr "X"), ("_app_debian", .vstr "Y")] "_app" false .replace
      = .ok (.vstr "Y") :=
  ⟨by decide, by decide, rfl, rfl⟩

/-- C6 (amended): when no suffix candidate is present and no default is
present, the lookup does not fail — the `for/else` of the source appends
the (absent, hence `None`) default, so the result is a single `None` value
and no error listing the searched keys exists. -/
theorem claimC6 : ∀ (order : List String) (vars : Dict) (pfx : String)
    (r : Bool) (lm : ListMerge),
    (∀ sfx ∈ order, getValue vars pfx sfx = .vnull) →
    getValue vars pfx "default" = .vnull →
    d4dResolve order vars pfx r lm = .ok .vnull := by
  intro order vars pfx r lm hs hd
  simp only [d4dResolve, findDist_eq_none order hs, hd]

/-- C6 counterexample: with no candidate and no default bound, the resolver
returns `Ok None` — it does not raise any error. -/
theorem claimC6_counterexample :
    d4dResolve ["debian_10", "debian_buster", "debian"] [("unrelated", Value.vint 1)]
      "_app" false .replace = .ok .vnull ∧
    ∀ e, d4dResolve ["debian_10", "debian_buster", "debian"] [("unrelated", Value.vint 1)]
      "_app" false .replace ≠ .error e :=
  ⟨rfl, fun _ h => Except.noConfusion h⟩

/-- C6 witness. -/
theorem claimC6_witness : d4dResolve ["s"] [] "p" true .keep = .ok .vnull :=
  claimC6 ["s"] [] "p" true .keep (fun _ _ => rfl) rfl

/-- C7 (confirmed): when a candidate is found, the result is decided by the
default's type: a mapping default is merged with the candidate via
`merge_hash` (default as base, candidate as overlay), a list default is
concatenated in front of the candidate with the `list_merge` policy not
consulted, and any other (non-null) default is discarded in favour of the
candidate. -/
theorem claimC7 : ∀ (order : List String) (vars : Dict) (pfx : String) (r : Bool)
    (lm : ListMerge) (dv : Value), findDist vars pfx order = some dv →
    ((∀ dd cd, getValue vars pfx "default" = .vdict dd → dv = .vdict cd →
        d4dResolve order vars pfx r lm = .ok (.vdict (mergeHash dd cd r lm))) ∧
     (∀ dl cl, getValue vars pfx "default" = .vlist dl → dv = .vlist cl →
        d4dResolve order vars pfx r lm = .ok (.vlist (dl ++ cl))) ∧
     (isNull (getValue vars pfx "default") = false →
      (∀ dd, getValue vars pfx "default" ≠ .vdict dd) →
      (∀ dl, getValue vars pfx "default" ≠ .vlist dl) →
      d4dResolve order vars pfx r lm = .ok dv)) := by
  intro order vars pfx r lm dv hf
  refine ⟨?_, ?_, ?_⟩
  · intro dd cd hdef hdv
    subst hdv
    simp only [d4dResolve, hf, hdef, isNull, Bool.false_eq_true, if_false]
  · intro dl cl hdef hdv
    subst hdv
    simp only [d4dResolve, hf, hdef, isNull, Bool.false_eq_true, if_false]
  · intro hnn hnd hnl
    cases hval : getValue vars pfx "default" with
    | vnull => rw [hval] at hnn; simp [isNull] at hnn
    | vdict dd => exact absurd hval (hnd dd)
    | vlist dl => exact absurd hval (hnl dl)
    | vbool b => simp only [d4dResolve, hf, hval, isNull, Bool.false_eq_true, if_false]
    | vint i => simp only [d4dResolve, hf, hval, isNull, Bool.false_eq_true, if_false]
    | vstr s => simp only [d4dResolve, hf, hval, isNull, Bool.false_eq_true, if_false]

/-- C7 witness (the spec's mapping-default scenario: default
`{"a":1,"b":2}`, candidate `{"b":3}`). -/
theorem claimC7_witness :
    d4dResolve ["debian"]
      [("_app_debian", Value.vdict [("b", Value.vint 3)]),
       ("_app_default", Value.vdict [("a", Value.vint 1), ("b", Value.vint 2)])]
      "_app" true .replace
      = .ok (.vdict (mergeHash [("a", Value.vint 1), ("b", Value.vint 2)]
          [("b", Value.vint 3)] true .replace)) :=
  (claimC7 ["debian"]
      [("_app_debian", Value.vdict [("b", Value.vint 3)]),
       ("_app_default", Value.vdict [("a", Value.vint 1), ("b", Value.vint 2)])]
      "_app" true .replace (Value.vdict [("b", Value.vint 3)]) rfl).1
    [("a", Value.vint 1), ("b", Value.vint 2)] [("b", Value.vint 3)] rfl rfl

/-- C8 (code bug): the mapping-default branch of `extend_by_name` checks
`isinstance(value, list)` although its own error message demands a value of
type `dict`: a matching variable holding a mapping fails with the type
error, while a matching variable holding a list is accepted and handed to
`merge_hash` (surviving only via the empty-mapping fast path). -/
theorem claimC8 :
    ebnRun id [("_p_x", Value.vdict [("b", Value.vint 2)])] (Value.vdict [("a", Value.vint 1)])
        "_p" true .replace
      = .error "Value type of _p_x must be dict, same as the default value" ∧
    ebnRun id [("_p_x", Value.vlist [Value.vstr "s"])] (Value.vdict []) "_p" true .replace
      = .ok (Value.vlist [Value.vstr "s"]) :=
  ⟨rfl, rfl⟩

/-- C9 (confirmed): with a sequence default, `extend_by_name` (1) is
invariant under permuting the variables mapping (it iterates
`sorted(variables.keys())`), (2) fails whenever some matching variable's
rendered value is not a sequence, and (3) on the example — default `[]`,
`_p_a = ["x"]`, `_p_b = ["y"]` given in reverse order — appends the
matching values in lexicographic name order, yielding `["x","y"]` for every
policy. -/
theorem claimC9 :
    (∀ (render : Value → Value) (vars1 vars2 : Dict) (dflt : Value) (pfx : String)
      (r : Bool) (lm : ListMerge), (dkeys vars1).Nodup → List.Perm vars1 vars2 →
      ebnRun render vars1 dflt pfx r lm = ebnRun render vars2 dflt pfx r lm) ∧
    (∀ (render : Value → Value) (vars : Dict) (dl : List Value) (pfx : String)
      (r : Bool) (lm : ListMerge) (n : String),
      n ∈ (sortStrs (dkeys vars)).filter (fun m => startsWithB m pfx) →
      (∀ vl, render (dgetD vars n .vnull) ≠ .vlist vl) →
      ∃ e, ebnRun render vars (.vlist dl) pfx r lm = .error e) ∧
    (∀ (r : Bool) (lm : ListMerge),
      ebnRun id [("_p_b", Value.vlist [Value.vstr "y"]), ("_p_a", Value.vlist [Value.vstr "x"])]
        (Value.vlist []) "_p" r lm = .ok (Value.vlist [Value.vstr "x", Value.vstr "y"])) := by
  refine ⟨?_, ?_, fun r lm => rfl⟩
  · intro render vars1 vars2 dflt pfx r lm hn hperm
    have hkeys : sortStrs (dkeys vars1) = sortStrs (dkeys vars2) :=
      sortStrs_eq_of_perm (hperm.map _)
    have hget := dget_perm_eq hperm hn
    cases dflt with
    | vlist dl =>
      simp only [ebnRun, hkeys]
      exact ebnFold_congr hget _ _
    | vdict dd =>
      simp only [ebnRun, hkeys]
      exact ebnFold_congr hget _ _
    | vnull => rfl
    | vbool b => rfl
    | vint i => rfl
    | vstr s => rfl
  · intro render vars dl pfx r lm n hmem hnl
    simp only [ebnRun]
    exact ebnFold_list_error hnl _ dl hmem

/-- C9 witness. -/
theorem claimC9_witness :
    ebnRun id [("_p_b", Value.vlist [Value.vstr "y"]), ("_p_a", Value.vlist [Value.vstr "x"])]
        (Value.vlist []) "_p" true .replace
      = ebnRun id [("_p_a", Value.vlist [Value.vstr "x"]), ("_p_b", Value.vlist [Value.vstr "y"])]
        (Value.vlist []) "_p" true .replace :=
  claimC9.1 id _ _ (Value.vlist []) "_p" true .replace (by simp [dkeys])
    (List.Perm.swap _ _ _)

/-- C10 (amended): a falsy value bound under the direct form
`prefix + suffix` makes `get_value` fall through to the underscore form
`prefix + "_" + suffix`; the candidate is skipped only when that fallback is
`None` (absent or bound to `None`) — a falsy but non-`None` underscore-form
value is used as the candidate's value, not skipped. -/
theorem claimC10 :
    (∀ (vars : Dict) (pfx sfx : String) (v : Value),
      dget vars (pfx ++ sfx) = some v → truthy v = false →
      getValue vars pfx sfx = dgetD vars (pfx ++ "_" ++ sfx) .vnull) ∧
    (∀ (vars : Dict) (pfx sfx : String) (rest : List String),
      getValue vars pfx sfx = .vnull →
      findDist vars pfx (sfx :: rest) = findDist vars pfx rest) := by
  constructor
  · intro vars pfx sfx v hg ht
    rw [getValue, pyOr, dgetD, hg]
    simp [ht]
  · intro vars pfx sfx rest h
    rw [findDist]
    simp [h, isNull]

/-- C10 counterexample: direct form bound to the falsy `{}` and underscore
form bound to the falsy `0` — the claim says the candidate is skipped
entirely (which would give `Ok None` here), but the resolver uses the
candidate with value `0`. -/
theorem claimC10_counterexample :
    d4dResolve ["debian_10", "debian_buster", "debian"]
      [("_appdebian_10", Value.vdict []), ("_app_debian_10", Value.vint 0)]
      "_app" false .replace = .ok (Value.vint 0) ∧
    (Except.ok (Value.vint 0) : Except String Value) ≠ .ok Value.vnull :=
  ⟨rfl, by simp⟩

/-- C10 witness. -/
theorem claimC10_witness :
    getValue [("px", Value.vint 0)] "p" "x" = dgetD [("px", Value.vint 0)] ("p" ++ "_" ++ "x") .vnull ∧
    findDist [("qx", Value.vint 9)] "p" ["x"] = findDist [("qx", Value.vint 9)] "p" [] :=
  ⟨claimC10.1 _ "p" "x" (Value.vint 0) rfl rfl, claimC10.2 _ "p" "x" [] rfl⟩

end AnsP
